import Mathlib

set_option linter.unusedVariables false

/-!
Shallow embedding of the interface registry implemented in src/ifvc.c
(smcroute).  C strings are modelled as NUL-free `List Char`, the registry
`iface_list`/`num_ifaces` as a `List Iface` in insertion order, and the
`getifaddrs` snapshot as a `List Ifaddrs`.  The external collaborator
`if_nametoindex` is passed in as a function `List Char → Nat`.
-/

/-- Modelled from the spec: DEFAULT_THRESHOLD is defined in the header
ifvc.h, which is not part of the given sources; spec section 3 says the TTL
threshold is "defaulted to a fixed constant at creation".  No claim depends
on its concrete value; we fix it to 1. -/
def DEFAULT_THRESHOLD : Nat := 1

/-- Value of UINT_MAX from limits.h (32-bit unsigned int), the initial
match length in iface_match_by_name. -/
def UINT_MAX : Nat := 2 ^ 32 - 1

/-- Modelled from the spec: struct iface is declared in the missing header
ifvc.h; its fields are reconstructed from their uses in ifvc.c and from
spec section 3.  The IPv4 address inaddr is the raw s_addr value, 0 meaning
"absent". -/
structure Iface where
  name : List Char
  inaddr : Nat
  flags : Nat
  ifindex : Nat
  vif : Int
  mif : Int
  mrdisc : Bool
  threshold : Nat
deriving Repr, DecidableEq, Inhabited

/-- Modelled from the spec: one getifaddrs snapshot entry (struct ifaddrs,
a system header).  Only the fields ifvc.c reads are modelled; ifa_addr is
collapsed to `some sin_addr` when it is non-NULL with sa_family = AF_INET,
and `none` otherwise (NULL pointer or non-IPv4 address family). -/
structure Ifaddrs where
  ifa_name : List Char
  ifa_flags : Nat
  ifa_addr4 : Option Nat
deriving Repr, DecidableEq, Inhabited

/-- Modelled from the spec: iterator state for interface matching (struct
ifmatch, declared in the missing header ifvc.h; fields per their use in
ifvc.c). -/
structure Ifmatch where
  iter : Nat
  match_count : Nat
deriving Repr, DecidableEq, Inhabited

/-- Result of strncmp(a, b, n) == 0 on NUL-free C strings: the first n
characters agree, where a string end (the NUL terminator) before position n
matches only another string end. -/
def cstrncmpEq : List Char → List Char → Nat → Bool
  | _, _, 0 => true
  | [], [], _ => true
  | [], _ :: _, _ => false
  | _ :: _, [], _ => false
  | a :: as, b :: bs, n + 1 => a == b && cstrncmpEq as bs n

/-- Alias handling in iface_find_by_name (ifvc.c lines 201-208): strdup the
queried name and cut it at the first ':' (strchr, then overwrite with NUL). -/
def strip_alias (nm : List Char) : List Char := nm.takeWhile (fun c => c != ':')

/-- Scanning loop of iface_find_by_name (ifvc.c lines 210-220), returning
the position of the record the C function returns a pointer to: the first
base-name match with vif >= 0 ends the scan at once, otherwise the last
base-name match seen is remembered as candidate.  `i` is the position of
the head of `regs` in the full registry and `candidate` the fallback
candidate found so far. -/
def iface_find_by_name_idx (nm : List Char) : List Iface → Nat → Option Nat → Option Nat
  | [], _, candidate => candidate
  | ifc :: rest, i, candidate =>
    if nm = ifc.name then
      if 0 ≤ ifc.vif then some i
      else iface_find_by_name_idx nm rest (i + 1) (some i)
    else iface_find_by_name_idx nm rest (i + 1) candidate

/-- Model of iface_find_by_name (ifvc.c lines 191-225); a NULL ifname is
modelled as `none`. -/
def iface_find_by_name (ifname : Option (List Char)) (regs : List Iface) : Option Iface :=
  match ifname with
  | none => none
  | some nm =>
    match iface_find_by_name_idx (strip_alias nm) regs 0 none with
    | none => none
    | some i => regs[i]?

/-- Record creation on a full reconcile (ifvc.c lines 100-118): the name is
copied from the snapshot entry (strlcpy into the fixed-size name field,
modelled as a full copy since OS interface names fit the buffer), the
address only if the entry has an AF_INET address (the slot is
zero-initialized by calloc/memset), flags copied, ifindex resolved through
if_nametoindex (the external collaborator nameToIndex), vif/mif unset,
mrdisc off, threshold at the default. -/
def iface_new (nameToIndex : List Char → Nat) (ifa : Ifaddrs) : Iface :=
  { name := ifa.ifa_name
    inaddr := ifa.ifa_addr4.getD 0
    flags := ifa.ifa_flags
    ifindex := nameToIndex ifa.ifa_name
    vif := -1
    mif := -1
    mrdisc := false
    threshold := DEFAULT_THRESHOLD }

/-- Body of the getifaddrs loop of iface_update (ifvc.c lines 74-119) for
one snapshot entry, acting on the pair (registry, change flag). -/
def iface_update_step (nameToIndex : List Char → Nat) (refresh : Bool)
    (st : List Iface × Bool) (ifa : Ifaddrs) : List Iface × Bool :=
  match iface_find_by_name_idx (strip_alias ifa.ifa_name) st.1 0 none with
  | some i =>
    match st.1[i]?, ifa.ifa_addr4 with
    | some ifc, some a =>
      if ifc.inaddr = 0 then (st.1.set i { ifc with inaddr := a }, true)
      else st
    | _, _ => st
  | none =>
    if refresh then st
    else (st.1 ++ [iface_new nameToIndex ifa], st.2)

/-- Model of iface_update (ifvc.c lines 63-123): fold the loop body over
the getifaddrs snapshot; change starts at 0 and the final value is returned
together with the new registry. -/
def iface_update (nameToIndex : List Char → Nat) (refresh : Bool)
    (snap : List Ifaddrs) (regs : List Iface) : List Iface × Bool :=
  snap.foldl (iface_update_step nameToIndex refresh) (regs, false)

/-- Model of iface_init (ifvc.c lines 131-146): the old registry is
discarded (num_ifaces = 0, the old allocation freed, a fresh one
allocated) and iface_update(0) repopulates from scratch.  The old registry
is a parameter only so that theorems can state that the result ignores it. -/
def iface_init (nameToIndex : List Char → Nat) (snap : List Ifaddrs)
    (oldRegs : List Iface) : List Iface :=
  (iface_update nameToIndex false snap []).1

/-- Model of iface_match_init (ifvc.c lines 253-257). -/
def iface_match_init : Ifmatch := { iter := 0, match_count := 0 }

/-- Model of ifname_is_wildcard (ifvc.c lines 265-268); NULL is `none`. -/
def ifname_is_wildcard : Option (List Char) → Bool
  | none => false
  | some nm => !nm.isEmpty && nm.getLast? == some '+'

/-- Match length used by iface_match_by_name (ifvc.c lines 285-291):
strlen(ifname) - 1 for a wildcard pattern, otherwise the initial UINT_MAX. -/
def match_len (pat : List Char) : Nat :=
  if ifname_is_wildcard (some pat) then pat.length - 1 else UINT_MAX

/-- Scanning loop of iface_match_by_name (ifvc.c lines 293-303): advance
state.iter over the registry until strncmp matches, then step past the hit
and count it; with no hit left the state stops at the end of the registry.
The loop is given explicit fuel so that it is structurally recursive; every
iteration advances state.iter by one, so the `regs.length + 1` fuel
supplied by iface_match_by_name is never exhausted. -/
def match_scanF (pat : List Char) (mlen : Nat) (regs : List Iface) :
    Nat → Ifmatch → Option Iface × Ifmatch
  | 0, st => (none, st)
  | fuel + 1, st =>
    if h : st.iter < regs.length then
      if cstrncmpEq pat (regs.get ⟨st.iter, h⟩).name mlen then
        (some (regs.get ⟨st.iter, h⟩),
          { iter := st.iter + 1, match_count := st.match_count + 1 })
      else
        match_scanF pat mlen regs fuel
          { iter := st.iter + 1, match_count := st.match_count }
    else (none, st)

/-- Model of iface_match_by_name (ifvc.c lines 282-307). -/
def iface_match_by_name (ifname : Option (List Char)) (regs : List Iface)
    (st : Ifmatch) : Option Iface × Ifmatch :=
  match ifname with
  | none => (none, st)
  | some pat => match_scanF pat (match_len pat) regs (regs.length + 1) st

/-- Model of iface_get_vif (ifvc.c lines 338-344): NULL iface gives -1. -/
def iface_get_vif : Option Iface → Int
  | none => -1
  | some ifc => ifc.vif

/-- Model of iface_get_mif (ifvc.c lines 354-364) on a build with
HAVE_IPV6_MULTICAST_ROUTING defined (without it the function is constantly
-1). -/
def iface_get_mif : Option Iface → Int
  | none => -1
  | some ifc => ifc.mif

/-- While-loop shared by iface_match_vif_by_name and
iface_match_mif_by_name (ifvc.c lines 375-393 and 404-422), abstracted over
the accessor (iface_get_vif or iface_get_mif) and given explicit fuel.
Each successful iface_match_by_name call strictly advances state.iter, so
the `regs.length + 1` fuel supplied by the two wrappers is never exhausted;
the fuel-out branch returns the loop's own failure value. -/
def match_if_loopF (get : Option Iface → Int) (ifname : Option (List Char))
    (regs : List Iface) : Nat → Ifmatch → Int × Option Iface × Ifmatch
  | 0, st => (-1, none, st)
  | fuel + 1, st =>
    match iface_match_by_name ifname regs st with
    | (none, st1) => (-1, none, st1)
    | (some ifc, st1) =>
      if 0 ≤ get (some ifc) then (get (some ifc), some ifc, st1)
      else match_if_loopF get ifname regs fuel
             { iter := st1.iter, match_count := st1.match_count - 1 }

/-- Model of iface_match_vif_by_name (ifvc.c lines 375-393); the returned
option is the record written through `found` (none when the loop never
succeeded, in which case the C function leaves `*found` untouched). -/
def iface_match_vif_by_name (ifname : Option (List Char)) (regs : List Iface)
    (st : Ifmatch) : Int × Option Iface × Ifmatch :=
  match_if_loopF iface_get_vif ifname regs (regs.length + 1) st

/-- Model of iface_match_mif_by_name (ifvc.c lines 404-422), IPv6 build. -/
def iface_match_mif_by_name (ifname : Option (List Char)) (regs : List Iface)
    (st : Ifmatch) : Int × Option Iface × Ifmatch :=
  match_if_loopF iface_get_mif ifname regs (regs.length + 1) st

/-- Specification predicate (claim C1): how a single record may evolve
across a refresh-only reconcile against snapshot `snap`: every field except
the address is untouched, a record with a non-zero address is untouched
entirely, and a changed address was zero before and was copied from some
AF_INET snapshot entry. -/
def FrameRel (snap : List Ifaddrs) (r r' : Iface) : Prop :=
  r'.name = r.name ∧ r'.flags = r.flags ∧ r'.ifindex = r.ifindex ∧
  r'.vif = r.vif ∧ r'.mif = r.mif ∧ r'.mrdisc = r.mrdisc ∧
  r'.threshold = r.threshold ∧
  (r.inaddr ≠ 0 → r' = r) ∧
  (r'.inaddr = r.inaddr ∨ (r.inaddr = 0 ∧ ∃ e ∈ snap, e.ifa_addr4 = some r'.inaddr))

/-- Specification predicate (claim C2): the loop body, run on registry `rs`
and snapshot entry `e`, takes the address-fill branch: the name lookup
finds an existing record, that record's address is zero, and the entry
carries an AF_INET address. -/
def FillCond (rs : List Iface) (e : Ifaddrs) : Prop :=
  ∃ i r a, iface_find_by_name_idx (strip_alias e.ifa_name) rs 0 none = some i ∧
    rs[i]? = some r ∧ r.inaddr = 0 ∧ e.ifa_addr4 = some a

/-- Concrete interface names used by the witnesses. -/
def cs_eth0 : List Char := ['e', 't', 'h', '0']

def cs_eth1 : List Char := ['e', 't', 'h', '1']

def cs_eth01 : List Char := ['e', 't', 'h', '0', '1']

def cs_wlan0 : List Char := ['w', 'l', 'a', 'n', '0']

def cs_ethp : List Char := ['e', 't', 'h', '+']

def cs_eth0a1 : List Char := ['e', 't', 'h', '0', ':', '1']

/-- Concrete name-to-index collaborator used by the witnesses. -/
def nti0 : List Char → Nat := fun nm => nm.length

/-- Concrete record builder used by the witnesses. -/
def mkIfc (nm : List Char) (adr : Nat) (v m : Int) : Iface :=
  { name := nm, inaddr := adr, flags := 0, ifindex := nm.length, vif := v
    mif := m, mrdisc := false, threshold := DEFAULT_THRESHOLD }

/-! ### Helper lemmas about the C-string comparison -/

/-- When the bound exceeds the length of the second string, strncmp equality
is string equality (the second string's terminator is reached within the
bound, and it only matches the first string's terminator). -/
theorem cstrncmpEq_eq_of_short (a : List Char) : ∀ (b : List Char) (n : Nat),
    b.length < n → cstrncmpEq a b n = true → a = b := by
  induction a with
  | nil =>
    intro b n hb h
    cases b with
    | nil => rfl
    | cons b bs =>
      cases n with
      | zero => omega
      | succ m => simp [cstrncmpEq] at h
  | cons a as ih =>
    intro b n hb h
    cases b with
    | nil =>
      cases n with
      | zero => omega
      | succ m => simp [cstrncmpEq] at h
    | cons b bs =>
      cases n with
      | zero => omega
      | succ m =>
        simp only [cstrncmpEq, Bool.and_eq_true, beq_iff_eq] at h
        obtain ⟨rfl, h2⟩ := h
        rw [ih bs m (by simp at hb; omega) h2]

/-- When the bound is at most the length of the first string, strncmp
equality is a prefix check of the bound-long prefix of the first string. -/
theorem cstrncmpEq_eq_isPrefixOf (a : List Char) : ∀ (b : List Char) (n : Nat),
    n ≤ a.length → cstrncmpEq a b n = (a.take n).isPrefixOf b := by
  induction a with
  | nil =>
    intro b n hn
    have : n = 0 := by simpa using hn
    subst this
    simp [cstrncmpEq, List.isPrefixOf]
  | cons a as ih =>
    intro b n hn
    cases n with
    | zero => simp [cstrncmpEq, List.isPrefixOf]
    | succ m =>
      cases b with
      | nil => simp [cstrncmpEq, List.isPrefixOf]
      | cons b bs =>
        simp only [cstrncmpEq, List.take_succ_cons, List.isPrefixOf]
        rw [ih bs m (by simp at hn; omega)]

/-- An empty pattern compared with a positive bound matches only an empty
string. -/
theorem cstrncmpEq_nil_cons (c : Char) (cs : List Char) (n : Nat) (hn : n ≠ 0) :
    cstrncmpEq [] (c :: cs) n = false := by
  cases n with
  | zero => exact absurd rfl hn
  | succ m => rfl

/-! ### Segment membership helpers -/

/-- An element sitting at position u ≥ a is a member of the drop-a suffix. -/
theorem seg_mem_drop {α : Type} {l : List α} {a u : Nat} {r : α}
    (h1 : a ≤ u) (h : l[u]? = some r) : r ∈ l.drop a := by
  have hd : (l.drop a)[u - a]? = some r := by
    rw [List.getElem?_drop]
    have he : a + (u - a) = u := by omega
    rw [he, h]
  exact List.getElem?_mem hd

/-- An element sitting at position a ≤ u < b is a member of the
corresponding take/drop segment. -/
theorem seg_mem_take_drop {α : Type} {l : List α} {a b u : Nat} {r : α}
    (h1 : a ≤ u) (h2 : u < b) (h : l[u]? = some r) : r ∈ (l.take b).drop a := by
  have ht : (l.take b)[u]? = some r := by
    rw [List.getElem?_take, if_pos h2, h]
  exact seg_mem_drop h1 ht

/-! ### Characterization of the matching scan loop -/

/-- Inversion for a successful scan: the hit sits at some position i at or
after the starting cursor, nothing between the cursor and i matches, and
the cursor ends one past i with the match count bumped once. -/
theorem match_scanF_some_inv (pat : List Char) (mlen : Nat) (regs : List Iface) :
    ∀ (fuel : Nat) (st : Ifmatch) (ifc : Iface) (st1 : Ifmatch),
      match_scanF pat mlen regs fuel st = (some ifc, st1) →
      ∃ i, st.iter ≤ i ∧ regs[i]? = some ifc ∧ cstrncmpEq pat ifc.name mlen = true ∧
        st1 = { iter := i + 1, match_count := st.match_count + 1 } ∧
        ∀ u q, st.iter ≤ u → u < i → regs[u]? = some q →
          cstrncmpEq pat q.name mlen = false := by
  intro fuel
  induction fuel with
  | zero => intro st ifc st1 h; simp [match_scanF] at h
  | succ fuel ih =>
    intro st ifc st1 h
    simp only [match_scanF] at h
    by_cases hlt : st.iter < regs.length
    · rw [dif_pos hlt] at h
      by_cases hm : cstrncmpEq pat (regs.get ⟨st.iter, hlt⟩).name mlen = true
      · rw [if_pos hm] at h
        obtain ⟨h1, h2⟩ := Prod.mk.injEq .. ▸ h
        injection h1 with h1
        refine ⟨st.iter, le_refl _, ?_, ?_, h2.symm, ?_⟩
        · rw [← h1, List.get_eq_getElem, ← List.getElem?_eq_getElem]
        · rw [← h1]; exact hm
        · intro u q hu1 hu2 _; omega
      · rw [if_neg hm] at h
        obtain ⟨i, hi, hgi, hcmp, hst1, hbefore⟩ := ih _ _ _ h
        have hi' : st.iter + 1 ≤ i := hi
        refine ⟨i, Nat.le_of_succ_le hi', hgi, hcmp, by rw [hst1], ?_⟩
        intro u q hu1 hu2 hq
        rcases Nat.eq_or_lt_of_le hu1 with he | hlt2
        · subst he
          have hg := List.getElem?_eq_getElem hlt
          rw [hg] at hq
          have hqe : q = regs.get ⟨st.iter, hlt⟩ := by
            rw [List.get_eq_getElem]
            exact (Option.some_inj.mp hq).symm
          rw [hqe]
          exact Bool.eq_false_iff.mpr hm
        · exact hbefore u q hlt2 hu2 hq
    · rw [dif_neg hlt] at h
      simp at h

/-- Inversion for an exhausted scan: given enough fuel, nothing at or after
the starting cursor matches and the match count is unchanged. -/
theorem match_scanF_none_inv (pat : List Char) (mlen : Nat) (regs : List Iface) :
    ∀ (fuel : Nat) (st st1 : Ifmatch), regs.length < st.iter + fuel →
      match_scanF pat mlen regs fuel st = (none, st1) →
      st1.match_count = st.match_count ∧
      ∀ u q, st.iter ≤ u → regs[u]? = some q →
        cstrncmpEq pat q.name mlen = false := by
  intro fuel
  induction fuel with
  | zero =>
    intro st st1 hf h
    simp only [match_scanF] at h
    obtain ⟨h1, h2⟩ := Prod.mk.injEq .. ▸ h
    refine ⟨by rw [← h2], ?_⟩
    intro u q hu hq
    have : regs[u]? = none := List.getElem?_eq_none (by omega)
    rw [this] at hq
    exact absurd hq (by simp)
  | succ fuel ih =>
    intro st st1 hf h
    simp only [match_scanF] at h
    by_cases hlt : st.iter < regs.length
    · rw [dif_pos hlt] at h
      by_cases hm : cstrncmpEq pat (regs.get ⟨st.iter, hlt⟩).name mlen = true
      · rw [if_pos hm] at h
        exact absurd (Prod.mk.injEq .. ▸ h).1 (by simp)
      · rw [if_neg hm] at h
        obtain ⟨hmc, hrest⟩ := ih _ _ (by simp; omega) h
        refine ⟨hmc, ?_⟩
        intro u q hu hq
        rcases Nat.eq_or_lt_of_le hu with he | hlt2
        · subst he
          have hg := List.getElem?_eq_getElem hlt
          rw [hg] at hq
          have hqe : q = regs.get ⟨st.iter, hlt⟩ := by
            rw [List.get_eq_getElem]
            exact (Option.some_inj.mp hq).symm
          rw [hqe]
          exact Bool.eq_false_iff.mpr hm
        · exact hrest u q hlt2 hq
    · rw [dif_neg hlt] at h
      obtain ⟨h1, h2⟩ := Prod.mk.injEq .. ▸ h
      refine ⟨by rw [← h2], ?_⟩
      intro u q hu hq
      have : regs[u]? = none := List.getElem?_eq_none (by omega)
      rw [this] at hq
      exact absurd hq (by simp)

/-- Running the scan when nothing at or after the cursor matches: no hit is
returned and the match count is unchanged (any fuel). -/
theorem match_scanF_eq_none (pat : List Char) (mlen : Nat) (regs : List Iface) :
    ∀ (fuel : Nat) (st : Ifmatch),
      (∀ u q, st.iter ≤ u → regs[u]? = some q →
        cstrncmpEq pat q.name mlen = false) →
      (match_scanF pat mlen regs fuel st).1 = none ∧
      (match_scanF pat mlen regs fuel st).2.match_count = st.match_count := by
  intro fuel
  induction fuel with
  | zero => intro st hno; simp [match_scanF]
  | succ fuel ih =>
    intro st hno
    simp only [match_scanF]
    by_cases hlt : st.iter < regs.length
    · rw [dif_pos hlt]
      have hm : cstrncmpEq pat (regs.get ⟨st.iter, hlt⟩).name mlen = false := by
        apply hno st.iter _ (le_refl _)
        rw [List.get_eq_getElem, ← List.getElem?_eq_getElem]
      rw [if_neg (by rw [hm]; simp)]
      apply ih
      intro u q hu hq
      exact hno u q (Nat.le_of_succ_le hu) hq
    · rw [dif_neg hlt]
      exact ⟨rfl, rfl⟩

/-- Running the scan onto a first hit at position i: given enough fuel the
hit record is returned and the cursor ends one past i with the match count
bumped once. -/
theorem match_scanF_eq_some (pat : List Char) (mlen : Nat) (regs : List Iface) :
    ∀ (fuel : Nat) (st : Ifmatch) (i : Nat) (r : Iface),
      regs.length < st.iter + fuel → st.iter ≤ i → regs[i]? = some r →
      cstrncmpEq pat r.name mlen = true →
      (∀ u q, st.iter ≤ u → u < i → regs[u]? = some q →
        cstrncmpEq pat q.name mlen = false) →
      match_scanF pat mlen regs fuel st =
        (some r, { iter := i + 1, match_count := st.match_count + 1 }) := by
  intro fuel
  induction fuel with
  | zero =>
    intro st i r hf hi hr hm hbefore
    have : i < regs.length := (List.getElem?_eq_some.mp hr).1
    omega
  | succ fuel ih =>
    intro st i r hf hi hr hm hbefore
    have hilen : i < regs.length := (List.getElem?_eq_some.mp hr).1
    have hlt : st.iter < regs.length := by omega
    simp only [match_scanF]
    rw [dif_pos hlt]
    rcases Nat.eq_or_lt_of_le hi with he | hlt2
    · have hgr : regs.get ⟨st.iter, hlt⟩ = r := by
        rw [List.get_eq_getElem]
        have hg := List.getElem?_eq_getElem hlt
        rw [← he] at hr
        rw [hg] at hr
        exact Option.some_inj.mp hr
      rw [if_pos (by rw [hgr]; exact hm), hgr, he]
    · have hmf : cstrncmpEq pat (regs.get ⟨st.iter, hlt⟩).name mlen = false := by
        apply hbefore st.iter _ (le_refl _) hlt2
        rw [List.get_eq_getElem, ← List.getElem?_eq_getElem]
      rw [if_neg (by rw [hmf]; simp)]
      exact ih _ i r (by simp; omega) hlt2 hr hm
        (fun u q hu1 hu2 hq => hbefore u q (Nat.le_of_succ_le hu1) hu2 hq)

/-- With a wildcard pattern the match length is the pattern length less the
trailing '+'. -/
theorem match_len_wildcard (pat : List Char)
    (hw : ifname_is_wildcard (some pat) = true) : match_len pat = pat.length - 1 := by
  simp [match_len, hw]

/-- With a non-wildcard pattern the match length stays UINT_MAX. -/
theorem match_len_exact (pat : List Char)
    (hw : ifname_is_wildcard (some pat) = false) : match_len pat = UINT_MAX := by
  simp [match_len, hw]

/-- For a wildcard pattern, the strncmp test performed by the scan is a
prefix test of the pattern with its trailing '+' removed. -/
theorem cstrncmpEq_wildcard (pat nm : List Char)
    (hw : ifname_is_wildcard (some pat) = true) :
    cstrncmpEq pat nm (match_len pat) = pat.dropLast.isPrefixOf nm := by
  rw [match_len_wildcard pat hw, List.dropLast_eq_take]
  exact cstrncmpEq_eq_isPrefixOf pat nm (pat.length - 1) (by omega)

/-! ### Characterization of the find-by-name scan -/

/-- With no base-name match in the remaining registry, the scan returns the
candidate it entered with. -/
theorem find_idx_eq_of_no_match (nm : List Char) :
    ∀ (rs : List Iface) (i : Nat) (cnd : Option Nat),
      (∀ r ∈ rs, r.name ≠ nm) → iface_find_by_name_idx nm rs i cnd = cnd := by
  intro rs
  induction rs with
  | nil => intro i cnd h; rfl
  | cons ifc rest ih =>
    intro i cnd h
    have hne : ¬nm = ifc.name := fun he => h ifc (List.mem_cons_self _ _) he.symm
    simp only [iface_find_by_name_idx]
    rw [if_neg hne]
    exact ih (i + 1) cnd (fun r hr => h r (List.mem_cons_of_mem _ hr))

/-- The scan returns the position of the first base-name match carrying a
non-negative vif, regardless of earlier vif-less matches. -/
theorem find_idx_eq_of_vif_match (nm : List Char) :
    ∀ (rs : List Iface) (i : Nat) (cnd : Option Nat) (j : Nat) (r : Iface),
      rs[j]? = some r → r.name = nm → 0 ≤ r.vif →
      (∀ q ∈ rs.take j, q.name = nm → q.vif < 0) →
      iface_find_by_name_idx nm rs i cnd = some (i + j) := by
  intro rs
  induction rs with
  | nil => intro i cnd j r hr _ _ _; simp at hr
  | cons ifc rest ih =>
    intro i cnd j r hr hname hvif hearlier
    cases j with
    | zero =>
      rw [List.getElem?_cons_zero] at hr
      obtain rfl : ifc = r := Option.some_inj.mp hr
      simp only [iface_find_by_name_idx]
      rw [if_pos hname.symm, if_pos hvif, Nat.add_zero]
    | succ j =>
      rw [List.getElem?_cons_succ] at hr
      have hshift : ∀ q ∈ rest.take j, q.name = nm → q.vif < 0 := by
        intro q hq
        exact hearlier q (by rw [List.take_succ_cons]; exact List.mem_cons_of_mem _ hq)
      by_cases hn : nm = ifc.name
      · have hv : ifc.vif < 0 := by
          apply hearlier ifc _ hn.symm
          rw [List.take_succ_cons]
          exact List.mem_cons_self _ _
        simp only [iface_find_by_name_idx]
        rw [if_pos hn, if_neg (by omega)]
        rw [show i + (j + 1) = (i + 1) + j from by omega]
        exact ih (i + 1) (some i) j r hr hname hvif hshift
      · simp only [iface_find_by_name_idx]
        rw [if_neg hn]
        rw [show i + (j + 1) = (i + 1) + j from by omega]
        exact ih (i + 1) cnd j r hr hname hvif hshift

/-- When every base-name match is vif-less, the scan returns the position
of the last base-name match. -/
theorem find_idx_eq_of_last_match (nm : List Char) :
    ∀ (rs : List Iface) (i : Nat) (cnd : Option Nat) (j : Nat) (r : Iface),
      rs[j]? = some r → r.name = nm →
      (∀ q ∈ rs, q.name = nm → q.vif < 0) →
      (∀ q ∈ rs.drop (j + 1), q.name ≠ nm) →
      iface_find_by_name_idx nm rs i cnd = some (i + j) := by
  intro rs
  induction rs with
  | nil => intro i cnd j r hr _ _ _; simp at hr
  | cons ifc rest ih =>
    intro i cnd j r hr hname hall hafter
    cases j with
    | zero =>
      rw [List.getElem?_cons_zero] at hr
      obtain rfl : ifc = r := Option.some_inj.mp hr
      have hv : ifc.vif < 0 := hall ifc (List.mem_cons_self _ _) hname
      simp only [iface_find_by_name_idx]
      rw [if_pos hname.symm, if_neg (by omega)]
      have : ∀ q ∈ rest, q.name ≠ nm := by
        intro q hq
        exact hafter q (by rw [List.drop_succ_cons, List.drop_zero]; exact hq)
      rw [find_idx_eq_of_no_match nm rest (i + 1) (some i) this, Nat.add_zero]
    | succ j =>
      rw [List.getElem?_cons_succ] at hr
      have hall' : ∀ q ∈ rest, q.name = nm → q.vif < 0 :=
        fun q hq => hall q (List.mem_cons_of_mem _ hq)
      have hafter' : ∀ q ∈ rest.drop (j + 1), q.name ≠ nm := by
        intro q hq
        exact hafter q (by rw [List.drop_succ_cons]; exact hq)
      by_cases hn : nm = ifc.name
      · have hv : ifc.vif < 0 := hall ifc (List.mem_cons_self _ _) hn.symm
        simp only [iface_find_by_name_idx]
        rw [if_pos hn, if_neg (by omega)]
        rw [show i + (j + 1) = (i + 1) + j from by omega]
        exact ih (i + 1) (some i) j r hr hname hall' hafter'
      · simp only [iface_find_by_name_idx]
        rw [if_neg hn]
        rw [show i + (j + 1) = (i + 1) + j from by omega]
        exact ih (i + 1) cnd j r hr hname hall' hafter'

/-- Cutting at the first ':' is idempotent. -/
theorem strip_alias_idem (nm : List Char) :
    strip_alias (strip_alias nm) = strip_alias nm := by
  induction nm with
  | nil => rfl
  | cons c cs ih =>
    by_cases hc : (c != ':') = true
    · simp only [strip_alias, List.takeWhile_cons, hc, if_true] at ih ⊢
      rw [← strip_alias, ← strip_alias] at ih ⊢
      rw [ih]
    · simp only [strip_alias, List.takeWhile_cons] at ih ⊢
      rw [if_neg hc]
      rfl

/-! ### Claim theorems: resolver -/

/-- Claim C3: for every pattern whose last character is not '+',
iface_match_by_name returns a record only when that record's name is
exactly the pattern.  The length bound on stored names reflects that the
name field is a fixed-size buffer far below UINT_MAX characters. -/
theorem iface_match_by_name_exact (pat : List Char) (regs : List Iface)
    (st st1 : Ifmatch) (r : Iface)
    (hw : ifname_is_wildcard (some pat) = false)
    (hb : ∀ q ∈ regs, q.name.length < UINT_MAX)
    (h : iface_match_by_name (some pat) regs st = (some r, st1)) :
    r.name = pat := by
  simp only [iface_match_by_name] at h
  obtain ⟨i, hi, hgi, hcmp, _, _⟩ := match_scanF_some_inv _ _ _ _ _ _ _ h
  rw [match_len_exact pat hw] at hcmp
  have hmem : r ∈ regs := List.getElem?_mem hgi
  exact (cstrncmpEq_eq_of_short pat r.name UINT_MAX (hb r hmem) hcmp).symm

/-- Registry used by the witnesses of claims C3 and C4. -/
def regsC3 : List Iface := [mkIfc cs_eth0 0 (-1) (-1), mkIfc cs_eth01 0 (-1) (-1)]

/-- Witness for claim C3: against records named eth0 and eth01, the
non-wildcard pattern eth0 yields exactly the record named eth0 on the first
call (whose name the theorem shows equal to the pattern), and no further
match on the second call. -/
theorem iface_match_by_name_exact_witness :
    iface_match_by_name (some cs_eth0) regsC3 iface_match_init =
      (some (mkIfc cs_eth0 0 (-1) (-1)), { iter := 1, match_count := 1 }) ∧
    (mkIfc cs_eth0 0 (-1) (-1)).name = cs_eth0 ∧
    (iface_match_by_name (some cs_eth0) regsC3 { iter := 1, match_count := 1 }).1 = none := by
  refine ⟨by decide, ?_, by decide⟩
  exact iface_match_by_name_exact cs_eth0 regsC3 iface_match_init
    { iter := 1, match_count := 1 } (mkIfc cs_eth0 0 (-1) (-1))
    (by decide) (by decide) (by decide)

/-- Claim C4: for a wildcard pattern, iface_match_by_name scans in
insertion order from the cursor, returns the first record whose name the
trimmed pattern prefixes, leaves the cursor one past that hit with
match_count incremented once; with no remaining hit it returns none with
match_count unchanged. -/
theorem iface_match_by_name_wildcard (pat : List Char) (regs : List Iface)
    (st : Ifmatch) (hw : ifname_is_wildcard (some pat) = true) :
    ((∀ q ∈ regs.drop st.iter, pat.dropLast.isPrefixOf q.name = false) →
      (iface_match_by_name (some pat) regs st).1 = none ∧
      (iface_match_by_name (some pat) regs st).2.match_count = st.match_count) ∧
    (∀ i r, st.iter ≤ i → regs[i]? = some r →
      pat.dropLast.isPrefixOf r.name = true →
      (∀ q ∈ (regs.take i).drop st.iter, pat.dropLast.isPrefixOf q.name = false) →
      iface_match_by_name (some pat) regs st =
        (some r, { iter := i + 1, match_count := st.match_count + 1 })) := by
  constructor
  · intro hno
    simp only [iface_match_by_name]
    apply match_scanF_eq_none
    intro u q hu hq
    rw [cstrncmpEq_wildcard pat _ hw]
    exact hno q (seg_mem_drop hu hq)
  · intro i r hi hr hpre hbefore
    simp only [iface_match_by_name]
    apply match_scanF_eq_some _ _ _ _ _ i r (by omega) hi hr
    · rw [cstrncmpEq_wildcard pat _ hw]; exact hpre
    · intro u q hu1 hu2 hq
      rw [cstrncmpEq_wildcard pat _ hw]
      exact hbefore q (seg_mem_take_drop hu1 hu2 hq)

/-- Registry used by the witness of claim C4. -/
def regsC4 : List Iface :=
  [mkIfc cs_eth0 0 (-1) (-1), mkIfc cs_eth1 0 (-1) (-1), mkIfc cs_wlan0 0 (-1) (-1)]

/-- Witness for claim C4: pattern eth+ over the store eth0, eth1, wlan0
with one shared cursor yields eth0, then eth1, then none, with the match
count ending at 2. -/
theorem iface_match_by_name_wildcard_witness :
    iface_match_by_name (some cs_ethp) regsC4 iface_match_init =
      (some (mkIfc cs_eth0 0 (-1) (-1)), { iter := 1, match_count := 1 }) ∧
    iface_match_by_name (some cs_ethp) regsC4 { iter := 1, match_count := 1 } =
      (some (mkIfc cs_eth1 0 (-1) (-1)), { iter := 2, match_count := 2 }) ∧
    (iface_match_by_name (some cs_ethp) regsC4 { iter := 2, match_count := 2 }).1 = none ∧
    (iface_match_by_name (some cs_ethp) regsC4 { iter := 2, match_count := 2 }).2.match_count = 2 := by
  obtain ⟨hn, hmc⟩ :=
    (iface_match_by_name_wildcard cs_ethp regsC4 { iter := 2, match_count := 2 }
      (by decide)).1 (by decide)
  refine ⟨?_, ?_, hn, hmc⟩
  · exact (iface_match_by_name_wildcard cs_ethp regsC4 iface_match_init (by decide)).2
      0 (mkIfc cs_eth0 0 (-1) (-1)) (by decide) (by decide) (by decide) (by decide)
  · exact (iface_match_by_name_wildcard cs_ethp regsC4 { iter := 1, match_count := 1 }
      (by decide)).2 1 (mkIfc cs_eth1 0 (-1) (-1)) (by decide) (by decide) (by decide) (by decide)

/-- Claim C5: iface_find_by_name strips the queried name at the first ':',
then returns the first exact base-name match with vif >= 0, else the last
exact base-name match, else none; querying with the stripped name gives
the same result as querying with the full name. -/
theorem iface_find_by_name_spec (nm0 : List Char) (regs : List Iface) :
    (∀ j r, regs[j]? = some r → r.name = strip_alias nm0 → 0 ≤ r.vif →
      (∀ q ∈ regs.take j, q.name = strip_alias nm0 → q.vif < 0) →
      iface_find_by_name (some nm0) regs = some r) ∧
    (∀ j r, regs[j]? = some r → r.name = strip_alias nm0 →
      (∀ q ∈ regs, q.name = strip_alias nm0 → q.vif < 0) →
      (∀ q ∈ regs.drop (j + 1), q.name ≠ strip_alias nm0) →
      iface_find_by_name (some nm0) regs = some r) ∧
    ((∀ q ∈ regs, q.name ≠ strip_alias nm0) →
      iface_find_by_name (some nm0) regs = none) ∧
    iface_find_by_name (some nm0) regs = iface_find_by_name (some (strip_alias nm0)) regs := by
  refine ⟨?_, ?_, ?_, ?_⟩
  · intro j r hr hname hvif hearlier
    simp only [iface_find_by_name]
    rw [find_idx_eq_of_vif_match (strip_alias nm0) regs 0 none j r hr hname hvif hearlier]
    simpa using hr
  · intro j r hr hname hall hafter
    simp only [iface_find_by_name]
    rw [find_idx_eq_of_last_match (strip_alias nm0) regs 0 none j r hr hname hall hafter]
    simpa using hr
  · intro hno
    simp only [iface_find_by_name]
    rw [find_idx_eq_of_no_match (strip_alias nm0) regs 0 none hno]
  · simp only [iface_find_by_name]
    rw [strip_alias_idem]

/-- Registry used by the witnesses of claims C5 and C9. -/
def regsC5 : List Iface := [mkIfc cs_eth0 0 (-1) (-1)]

/-- Witness for claim C5: with only a record named eth0 stored, looking up
the alias name eth0:1 resolves to the same record as looking up eth0. -/
theorem iface_find_by_name_spec_witness :
    iface_find_by_name (some cs_eth0a1) regsC5 = some (mkIfc cs_eth0 0 (-1) (-1)) ∧
    iface_find_by_name (some cs_eth0) regsC5 = some (mkIfc cs_eth0 0 (-1) (-1)) := by
  constructor
  · exact (iface_find_by_name_spec cs_eth0a1 regsC5).2.1 0 (mkIfc cs_eth0 0 (-1) (-1))
      (by decide) (by decide) (by decide) (by decide)
  · exact (iface_find_by_name_spec cs_eth0 regsC5).2.1 0 (mkIfc cs_eth0 0 (-1) (-1))
      (by decide) (by decide) (by decide) (by decide)

/-- Claim C9: with every stored record carrying a non-empty name, a NULL
or empty queried name or pattern produces "no match" from both
iface_find_by_name and iface_match_by_name. -/
theorem iface_lookup_null_empty (regs : List Iface) (st : Ifmatch)
    (h : ∀ r ∈ regs, r.name ≠ ([] : List Char)) :
    iface_find_by_name none regs = none ∧
    iface_find_by_name (some []) regs = none ∧
    (iface_match_by_name none regs st).1 = none ∧
    (iface_match_by_name (some []) regs st).1 = none := by
  refine ⟨rfl, ?_, rfl, ?_⟩
  · simp only [iface_find_by_name]
    rw [find_idx_eq_of_no_match (strip_alias []) regs 0 none h]
  · simp only [iface_match_by_name]
    apply (match_scanF_eq_none ([] : List Char) (match_len []) regs _ st ?_).1
    intro u q hu hq
    have hne := h q (List.getElem?_mem hq)
    obtain ⟨c, cs, hcase⟩ : ∃ c cs, q.name = c :: cs := by
      cases hqn : q.name with
      | nil => exact absurd hqn hne
      | cons c cs => exact ⟨c, cs, rfl⟩
    rw [hcase]
    exact cstrncmpEq_nil_cons c cs (match_len []) (by decide)

/-- Witness for claim C9: the NULL and empty lookups all miss on a
one-record registry whose record is named eth0. -/
theorem iface_lookup_null_empty_witness :
    iface_find_by_name none regsC5 = none ∧
    iface_find_by_name (some []) regsC5 = none ∧
    (iface_match_by_name none regsC5 iface_match_init).1 = none ∧
    (iface_match_by_name (some []) regsC5 iface_match_init).1 = none :=
  iface_lookup_null_empty regsC5 iface_match_init (by decide)

/-! ### Characterization of the vif/mif matching loop -/

/-- When every remaining name match has a negative index, the loop ends
with -1, no found record, and the match count unchanged (every skipped
name match is compensated by the decrement). -/
theorem match_if_loopF_eq_neg (get : Option Iface → Int) (pat : List Char) (regs : List Iface) :
    ∀ (fuel : Nat) (st : Ifmatch), regs.length < st.iter + fuel →
      (∀ u q, st.iter ≤ u → regs[u]? = some q →
        cstrncmpEq pat q.name (match_len pat) = true → get (some q) < 0) →
      (match_if_loopF get (some pat) regs fuel st).1 = -1 ∧
      (match_if_loopF get (some pat) regs fuel st).2.1 = none ∧
      (match_if_loopF get (some pat) regs fuel st).2.2.match_count = st.match_count := by
  intro fuel
  induction fuel with
  | zero => intro st hf hneg; exact ⟨rfl, rfl, rfl⟩
  | succ fuel ih =>
    intro st hf hneg
    simp only [match_if_loopF, iface_match_by_name]
    rcases hms : match_scanF pat (match_len pat) regs (regs.length + 1) st with ⟨o, st1⟩
    cases o with
    | none =>
      simp only [hms]
      have hinv := match_scanF_none_inv pat (match_len pat) regs (regs.length + 1)
        st st1 (by omega) hms
      exact ⟨trivial, trivial, hinv.1⟩
    | some ifc =>
      simp only [hms]
      obtain ⟨i, hi, hgi, hcmp, hst1, _⟩ := match_scanF_some_inv _ _ _ _ _ _ _ hms
      have hneg' := hneg i ifc hi hgi hcmp
      rw [if_neg (by omega)]
      subst hst1
      have h2 := ih { iter := i + 1, match_count := st.match_count + 1 - 1 }
        (by show regs.length < i + 1 + fuel; omega)
        (fun u q hu hq hc => hneg u q (Nat.le_trans (Nat.le_succ_of_le hi) hu) hq hc)
      refine ⟨h2.1, h2.2.1, ?_⟩
      rw [h2.2.2]
      show st.match_count + 1 - 1 = st.match_count
      omega

/-- The loop returns the index and record of the first name match at or
after the cursor whose index is non-negative, with earlier vif-less name
matches skipped without net effect on the match count. -/
theorem match_if_loopF_eq_found (get : Option Iface → Int) (pat : List Char) (regs : List Iface) :
    ∀ (fuel : Nat) (st : Ifmatch) (i : Nat) (r : Iface),
      regs.length < st.iter + fuel → st.iter ≤ i → regs[i]? = some r →
      cstrncmpEq pat r.name (match_len pat) = true → 0 ≤ get (some r) →
      (∀ u q, st.iter ≤ u → u < i → regs[u]? = some q →
        cstrncmpEq pat q.name (match_len pat) = true → get (some q) < 0) →
      match_if_loopF get (some pat) regs fuel st =
        (get (some r), some r, { iter := i + 1, match_count := st.match_count + 1 }) := by
  intro fuel
  induction fuel with
  | zero =>
    intro st i r hf hi hr _ _ _
    have : i < regs.length := (List.getElem?_eq_some.mp hr).1
    omega
  | succ fuel ih =>
    intro st i r hf hi hr hcmp hget hbefore
    simp only [match_if_loopF, iface_match_by_name]
    rcases hms : match_scanF pat (match_len pat) regs (regs.length + 1) st with ⟨o, st1⟩
    cases o with
    | none =>
      have hinv := match_scanF_none_inv pat (match_len pat) regs (regs.length + 1)
        st st1 (by omega) hms
      exact absurd hcmp (by rw [hinv.2 i r hi hr]; simp)
    | some ifc =>
      simp only [hms]
      obtain ⟨i0, hi0, hgi0, hcmp0, hst1, hscanbefore⟩ := match_scanF_some_inv _ _ _ _ _ _ _ hms
      have hle : i0 ≤ i := by
        by_contra hgt
        push_neg at hgt
        have hfalse := hscanbefore i r hi hgt hr
        rw [hcmp] at hfalse
        exact absurd hfalse (by simp)
      rcases Nat.eq_or_lt_of_le hle with he | hlt
      · subst he
        rw [hgi0] at hr
        obtain rfl : ifc = r := Option.some_inj.mp hr
        rw [if_pos hget, hst1]
      · have hneg0 := hbefore i0 ifc hi0 hlt hgi0 hcmp0
        rw [if_neg (by omega)]
        subst hst1
        exact ih { iter := i0 + 1, match_count := st.match_count + 1 - 1 } i r
          (by show regs.length < i0 + 1 + fuel; omega) hlt hr hcmp hget
          (fun u q hu hu2 hq hc => hbefore u q (Nat.le_trans (Nat.le_succ_of_le hi0) hu) hu2 hq hc)

/-- Claim C6: iface_match_vif_by_name repeatedly runs the name matcher,
skipping each name match whose vif is negative while cancelling the
matcher's count increment, and stops at the first name match with
vif >= 0, returning that vif and the record; with no such remaining match
it returns -1 with the match count unchanged.  The same holds for
iface_match_mif_by_name with mif in place of vif. -/
theorem iface_match_vif_mif_spec (pat : List Char) (regs : List Iface) (st : Ifmatch) :
    (∀ i r, st.iter ≤ i → regs[i]? = some r →
      cstrncmpEq pat r.name (match_len pat) = true → 0 ≤ r.vif →
      (∀ q ∈ (regs.take i).drop st.iter,
        cstrncmpEq pat q.name (match_len pat) = true → q.vif < 0) →
      iface_match_vif_by_name (some pat) regs st =
        (r.vif, some r, { iter := i + 1, match_count := st.match_count + 1 })) ∧
    (∀ i r, st.iter ≤ i → regs[i]? = some r →
      cstrncmpEq pat r.name (match_len pat) = true → 0 ≤ r.mif →
      (∀ q ∈ (regs.take i).drop st.iter,
        cstrncmpEq pat q.name (match_len pat) = true → q.mif < 0) →
      iface_match_mif_by_name (some pat) regs st =
        (r.mif, some r, { iter := i + 1, match_count := st.match_count + 1 })) ∧
    ((∀ q ∈ regs.drop st.iter,
        cstrncmpEq pat q.name (match_len pat) = true → q.vif < 0) →
      (iface_match_vif_by_name (some pat) regs st).1 = -1 ∧
      (iface_match_vif_by_name (some pat) regs st).2.1 = none ∧
      (iface_match_vif_by_name (some pat) regs st).2.2.match_count = st.match_count) ∧
    ((∀ q ∈ regs.drop st.iter,
        cstrncmpEq pat q.name (match_len pat) = true → q.mif < 0) →
      (iface_match_mif_by_name (some pat) regs st).1 = -1 ∧
      (iface_match_mif_by_name (some pat) regs st).2.1 = none ∧
      (iface_match_mif_by_name (some pat) regs st).2.2.match_count = st.match_count) := by
  refine ⟨?_, ?_, ?_, ?_⟩
  · intro i r hi hr hcmp hget hbefore
    simp only [iface_match_vif_by_name]
    exact match_if_loopF_eq_found iface_get_vif pat regs (regs.length + 1) st i r
      (by omega) hi hr hcmp hget
      (fun u q hu hu2 hq hc => hbefore q (seg_mem_take_drop hu hu2 hq) hc)
  · intro i r hi hr hcmp hget hbefore
    simp only [iface_match_mif_by_name]
    exact match_if_loopF_eq_found iface_get_mif pat regs (regs.length + 1) st i r
      (by omega) hi hr hcmp hget
      (fun u q hu hu2 hq hc => hbefore q (seg_mem_take_drop hu hu2 hq) hc)
  · intro hno
    simp only [iface_match_vif_by_name]
    exact match_if_loopF_eq_neg iface_get_vif pat regs (regs.length + 1) st
      (by omega) (fun u q hu hq hc => hno q (seg_mem_drop hu hq) hc)
  · intro hno
    simp only [iface_match_mif_by_name]
    exact match_if_loopF_eq_neg iface_get_mif pat regs (regs.length + 1) st
      (by omega) (fun u q hu hq hc => hno q (seg_mem_drop hu hq) hc)

/-- Registry used by the witness of claim C6: eth0 has no vif, eth1 has
vif 3; neither has a mif. -/
def regsC6 : List Iface := [mkIfc cs_eth0 0 (-1) (-1), mkIfc cs_eth1 0 3 (-1)]

/-- Witness for claim C6: with pattern eth+ the vif matcher skips eth0
(vif unset) without double counting and returns eth1's vif 3 with a final
match count of 1; the mif matcher finds no registered mif and returns -1
with the match count back at 0. -/
theorem iface_match_vif_mif_spec_witness :
    iface_match_vif_by_name (some cs_ethp) regsC6 iface_match_init =
      (3, some (mkIfc cs_eth1 0 3 (-1)), { iter := 2, match_count := 1 }) ∧
    (iface_match_mif_by_name (some cs_ethp) regsC6 iface_match_init).1 = -1 ∧
    (iface_match_mif_by_name (some cs_ethp) regsC6 iface_match_init).2.1 = none ∧
    (iface_match_mif_by_name (some cs_ethp) regsC6 iface_match_init).2.2.match_count = 0 := by
  obtain ⟨hm1, hm2, hm3⟩ :=
    (iface_match_vif_mif_spec cs_ethp regsC6 iface_match_init).2.2.2 (by decide)
  refine ⟨?_, hm1, hm2, hm3⟩
  exact (iface_match_vif_mif_spec cs_ethp regsC6 iface_match_init).1 1
    (mkIfc cs_eth1 0 3 (-1)) (by decide) (by decide) (by decide) (by decide) (by decide)

/-! ### Branch lemmas for the reconcile loop body -/

/-- Fill branch: an existing record with a zero address gets the entry's
AF_INET address and the change flag is raised. -/
theorem step_eq_fill (nti : List Char → Nat) (refresh : Bool)
    (st : List Iface × Bool) (e : Ifaddrs) (i : Nat) (ifc : Iface) (a : Nat)
    (hfind : iface_find_by_name_idx (strip_alias e.ifa_name) st.1 0 none = some i)
    (hget : st.1[i]? = some ifc) (ha : e.ifa_addr4 = some a) (hz : ifc.inaddr = 0) :
    iface_update_step nti refresh st e = (st.1.set i { ifc with inaddr := a }, true) := by
  simp only [iface_update_step, hfind, hget, ha, if_pos hz]

/-- Found with no AF_INET address on the entry: nothing happens. -/
theorem step_eq_found_noaddr (nti : List Char → Nat) (refresh : Bool)
    (st : List Iface × Bool) (e : Ifaddrs) (i : Nat)
    (hfind : iface_find_by_name_idx (strip_alias e.ifa_name) st.1 0 none = some i)
    (ha : e.ifa_addr4 = none) :
    iface_update_step nti refresh st e = st := by
  simp only [iface_update_step, hfind, ha]
  rcases hget : st.1[i]? with _ | ifc <;> rfl

/-- Found with a non-zero stored address: nothing happens. -/
theorem step_eq_found_nonzero (nti : List Char → Nat) (refresh : Bool)
    (st : List Iface × Bool) (e : Ifaddrs) (i : Nat) (ifc : Iface)
    (hfind : iface_find_by_name_idx (strip_alias e.ifa_name) st.1 0 none = some i)
    (hget : st.1[i]? = some ifc) (hz : ifc.inaddr ≠ 0) :
    iface_update_step nti refresh st e = st := by
  simp only [iface_update_step, hfind, hget]
  rcases ha : e.ifa_addr4 with _ | a
  · rfl
  · simp [hz]

/-- Found with an out-of-range position (never reachable from the scan,
kept for completeness of the case split): nothing happens. -/
theorem step_eq_found_oob (nti : List Char → Nat) (refresh : Bool)
    (st : List Iface × Bool) (e : Ifaddrs) (i : Nat)
    (hfind : iface_find_by_name_idx (strip_alias e.ifa_name) st.1 0 none = some i)
    (hget : st.1[i]? = none) :
    iface_update_step nti refresh st e = st := by
  simp only [iface_update_step, hfind, hget]

/-- Not found on a refresh: nothing happens. -/
theorem step_eq_refresh_skip (nti : List Char → Nat)
    (st : List Iface × Bool) (e : Ifaddrs)
    (hfind : iface_find_by_name_idx (strip_alias e.ifa_name) st.1 0 none = none) :
    iface_update_step nti true st e = st := by
  simp [iface_update_step, hfind]

/-- Not found on a full reconcile: a fresh record is appended and the
change flag is left alone. -/
theorem step_eq_append (nti : List Char → Nat)
    (st : List Iface × Bool) (e : Ifaddrs)
    (hfind : iface_find_by_name_idx (strip_alias e.ifa_name) st.1 0 none = none) :
    iface_update_step nti false st e = (st.1 ++ [iface_new nti e], st.2) := by
  simp only [iface_update_step, hfind]
  rfl

/-- The registry produced by the loop body does not depend on the incoming
change flag. -/
theorem step_fst_indep (nti : List Char → Nat) (refresh : Bool)
    (st : List Iface × Bool) (e : Ifaddrs) :
    (iface_update_step nti refresh st e).1 =
      (iface_update_step nti refresh (st.1, false) e).1 := by
  rcases hfind : iface_find_by_name_idx (strip_alias e.ifa_name) st.1 0 none with _ | i
  · cases refresh
    · rw [step_eq_append nti st e hfind, step_eq_append nti (st.1, false) e hfind]
    · rw [step_eq_refresh_skip nti st e hfind, step_eq_refresh_skip nti (st.1, false) e hfind]
  · rcases hget : st.1[i]? with _ | ifc
    · rw [step_eq_found_oob nti refresh st e i hfind hget,
        step_eq_found_oob nti refresh (st.1, false) e i hfind hget]
    · rcases ha : e.ifa_addr4 with _ | a
      · rw [step_eq_found_noaddr nti refresh st e i hfind ha,
          step_eq_found_noaddr nti refresh (st.1, false) e i hfind ha]
      · by_cases hz : ifc.inaddr = 0
        · rw [step_eq_fill nti refresh st e i ifc a hfind hget ha hz,
            step_eq_fill nti refresh (st.1, false) e i ifc a hfind hget ha hz]
        · rw [step_eq_found_nonzero nti refresh st e i ifc hfind hget hz,
            step_eq_found_nonzero nti refresh (st.1, false) e i ifc hfind hget hz]

/-- The loop body never lowers the change flag. -/
theorem step_snd_mono (nti : List Char → Nat) (refresh : Bool)
    (st : List Iface × Bool) (e : Ifaddrs) (h : st.2 = true) :
    (iface_update_step nti refresh st e).2 = true := by
  rcases hfind : iface_find_by_name_idx (strip_alias e.ifa_name) st.1 0 none with _ | i
  · cases refresh
    · rw [step_eq_append nti st e hfind]; exact h
    · rw [step_eq_refresh_skip nti st e hfind]; exact h
  · rcases hget : st.1[i]? with _ | ifc
    · rw [step_eq_found_oob nti refresh st e i hfind hget]; exact h
    · rcases ha : e.ifa_addr4 with _ | a
      · rw [step_eq_found_noaddr nti refresh st e i hfind ha]; exact h
      · by_cases hz : ifc.inaddr = 0
        · rw [step_eq_fill nti refresh st e i ifc a hfind hget ha hz]
        · rw [step_eq_found_nonzero nti refresh st e i ifc hfind hget hz]; exact h

/-- The change flag after one loop body run is raised exactly when it was
already raised or the body took the fill branch. -/
theorem step_snd_iff (nti : List Char → Nat) (refresh : Bool)
    (st : List Iface × Bool) (e : Ifaddrs) :
    (iface_update_step nti refresh st e).2 = true ↔ (st.2 = true ∨ FillCond st.1 e) := by
  rcases hfind : iface_find_by_name_idx (strip_alias e.ifa_name) st.1 0 none with _ | i
  · have hnofill : ¬FillCond st.1 e := by
      rintro ⟨i, r, a, hf, -, -, -⟩
      rw [hfind] at hf
      exact absurd hf (by simp)
    cases refresh
    · rw [step_eq_append nti st e hfind]
      simp [hnofill]
    · rw [step_eq_refresh_skip nti st e hfind]
      simp [hnofill]
  · rcases hget : st.1[i]? with _ | ifc
    · have hnofill : ¬FillCond st.1 e := by
        rintro ⟨i', r, a, hf, hg, -, -⟩
        rw [hfind] at hf
        obtain rfl : i = i' := Option.some_inj.mp hf
        rw [hget] at hg
        exact absurd hg (by simp)
      rw [step_eq_found_oob nti refresh st e i hfind hget]
      simp [hnofill]
    · rcases ha : e.ifa_addr4 with _ | a
      · have hnofill : ¬FillCond st.1 e := by
          rintro ⟨i', r, a, hf, hg, hz, hae⟩
          rw [ha] at hae
          exact absurd hae (by simp)
        rw [step_eq_found_noaddr nti refresh st e i hfind ha]
        simp [hnofill]
      · by_cases hz : ifc.inaddr = 0
        · have hfill : FillCond st.1 e := ⟨i, ifc, a, hfind, hget, hz, ha⟩
          rw [step_eq_fill nti refresh st e i ifc a hfind hget ha hz]
          simp [hfill]
        · have hnofill : ¬FillCond st.1 e := by
            rintro ⟨i', r, a', hf, hg, hz', -⟩
            rw [hfind] at hf
            obtain rfl : i = i' := Option.some_inj.mp hf
            rw [hget] at hg
            obtain rfl : ifc = r := Option.some_inj.mp hg
            exact hz hz'
          rw [step_eq_found_nonzero nti refresh st e i ifc hfind hget hz]
          simp [hnofill]

/-! ### Fold-level lemmas for the reconcile -/

/-- The registry component of a reconcile fold does not depend on the
incoming change flag. -/
theorem fold_fst_indep (nti : List Char → Nat) (refresh : Bool) :
    ∀ (l : List Ifaddrs) (p : List Iface × Bool),
      (l.foldl (iface_update_step nti refresh) p).1 =
      (l.foldl (iface_update_step nti refresh) (p.1, false)).1 := by
  intro l
  induction l with
  | nil => intro p; rfl
  | cons e l ih =>
    intro p
    simp only [List.foldl_cons]
    rw [ih (iface_update_step nti refresh p e),
      ih (iface_update_step nti refresh (p.1, false) e),
      step_fst_indep nti refresh p e]

/-- A raised change flag stays raised through the rest of the fold. -/
theorem fold_snd_mono (nti : List Char → Nat) (refresh : Bool) :
    ∀ (l : List Ifaddrs) (p : List Iface × Bool), p.2 = true →
      (l.foldl (iface_update_step nti refresh) p).2 = true := by
  intro l
  induction l with
  | nil => intro p h; exact h
  | cons e l ih =>
    intro p h
    simp only [List.foldl_cons]
    exact ih _ (step_snd_mono nti refresh p e h)

/-- Unfolding a reconcile one snapshot entry at a time, on the registry
component. -/
theorem update_cons_fst (nti : List Char → Nat) (refresh : Bool)
    (rs : List Iface) (e0 : Ifaddrs) (l : List Ifaddrs) :
    (iface_update nti refresh (e0 :: l) rs).1 =
      (iface_update nti refresh l (iface_update_step nti refresh (rs, false) e0).1).1 := by
  simp only [iface_update, List.foldl_cons]
  exact fold_fst_indep nti refresh l (iface_update_step nti refresh (rs, false) e0)

/-- Decomposing a reconcile at snapshot position k. -/
theorem update_take_succ (nti : List Char → Nat) (refresh : Bool)
    (snap : List Ifaddrs) (regs : List Iface) (k : Nat) (e : Ifaddrs)
    (he : snap[k]? = some e) :
    iface_update nti refresh (snap.take (k + 1)) regs =
      iface_update_step nti refresh (iface_update nti refresh (snap.take k) regs) e := by
  simp only [iface_update]
  rw [List.take_succ, he]
  rw [List.foldl_append]
  rfl

/-! ### The frame relation of a refresh -/

/-- The frame relation is reflexive. -/
theorem frameRel_refl (snap : List Ifaddrs) (r : Iface) : FrameRel snap r r :=
  ⟨rfl, rfl, rfl, rfl, rfl, rfl, rfl, fun _ => rfl, Or.inl rfl⟩

/-- The frame relation only grows when the snapshot grows. -/
theorem frameRel_mono (e0 : Ifaddrs) (l : List Ifaddrs) (r r' : Iface)
    (h : FrameRel l r r') : FrameRel (e0 :: l) r r' := by
  obtain ⟨h1, h2, h3, h4, h5, h6, h7, h8, h9⟩ := h
  refine ⟨h1, h2, h3, h4, h5, h6, h7, h8, ?_⟩
  rcases h9 with he | ⟨hz, e, hel, hae⟩
  · exact Or.inl he
  · exact Or.inr ⟨hz, e, List.mem_cons_of_mem _ hel, hae⟩

/-- A zero-address record freshly filled from the head entry, followed by
any frame-respecting evolution over the tail, is frame-respecting over the
whole snapshot. -/
theorem frameRel_compose_fill (e0 : Ifaddrs) (l : List Ifaddrs) (r r' : Iface) (a : Nat)
    (hz : r.inaddr = 0) (ha : e0.ifa_addr4 = some a)
    (h : FrameRel l { r with inaddr := a } r') : FrameRel (e0 :: l) r r' := by
  obtain ⟨h1, h2, h3, h4, h5, h6, h7, h8, h9⟩ := h
  refine ⟨h1, h2, h3, h4, h5, h6, h7, fun hc => absurd hz hc, ?_⟩
  rcases h9 with he | ⟨hz2, e, hel, hae⟩
  · refine Or.inr ⟨hz, e0, List.mem_cons_self _ _, ?_⟩
    rw [ha]
    exact congrArg some (by rw [he])
  · exact Or.inr ⟨hz, e, List.mem_cons_of_mem _ hel, hae⟩

/-- Claim C1: a refresh-only reconcile keeps the record count unchanged
and, record by record, only possibly copies an AF_INET snapshot address
into a previously zero address; a record with a non-zero address, and
every field other than the address of every record, is left unchanged. -/
theorem iface_update_refresh_frame (nti : List Char → Nat) (snap : List Ifaddrs)
    (regs : List Iface) :
    (iface_update nti true snap regs).1.length = regs.length ∧
    ∀ (u : Nat) (r : Iface), regs[u]? = some r →
      ∃ r', (iface_update nti true snap regs).1[u]? = some r' ∧ FrameRel snap r r' := by
  induction snap generalizing regs with
  | nil =>
    exact ⟨rfl, fun u r hu => ⟨r, hu, frameRel_refl [] r⟩⟩
  | cons e0 l ih =>
    rw [update_cons_fst nti true regs e0 l]
    rcases hfind : iface_find_by_name_idx (strip_alias e0.ifa_name) regs 0 none with _ | i
    · rw [step_eq_refresh_skip nti (regs, false) e0 hfind]
      obtain ⟨hlen, hrel⟩ := ih regs
      refine ⟨hlen, fun u r hu => ?_⟩
      obtain ⟨r', hg, hf⟩ := hrel u r hu
      exact ⟨r', hg, frameRel_mono e0 l r r' hf⟩
    · rcases hget : regs[i]? with _ | ifc
      · rw [step_eq_found_oob nti true (regs, false) e0 i hfind hget]
        obtain ⟨hlen, hrel⟩ := ih regs
        refine ⟨hlen, fun u r hu => ?_⟩
        obtain ⟨r', hg, hf⟩ := hrel u r hu
        exact ⟨r', hg, frameRel_mono e0 l r r' hf⟩
      · rcases ha : e0.ifa_addr4 with _ | a
        · rw [step_eq_found_noaddr nti true (regs, false) e0 i hfind ha]
          obtain ⟨hlen, hrel⟩ := ih regs
          refine ⟨hlen, fun u r hu => ?_⟩
          obtain ⟨r', hg, hf⟩ := hrel u r hu
          exact ⟨r', hg, frameRel_mono e0 l r r' hf⟩
        · by_cases hz : ifc.inaddr = 0
          · rw [step_eq_fill nti true (regs, false) e0 i ifc a hfind hget ha hz]
            obtain ⟨hlen, hrel⟩ := ih (regs.set i { ifc with inaddr := a })
            constructor
            · rw [List.length_set] at hlen
              exact hlen
            · intro u r hu
              by_cases hui : u = i
              · subst hui
                rw [hget] at hu
                obtain rfl : ifc = r := Option.some_inj.mp hu
                have hproper : u < regs.length := (List.getElem?_eq_some.mp hget).1
                have hset : (regs.set u { ifc with inaddr := a })[u]? =
                    some { ifc with inaddr := a } := List.getElem?_set_self hproper
                obtain ⟨r', hg, hf⟩ := hrel u { ifc with inaddr := a } hset
                exact ⟨r', hg, frameRel_compose_fill e0 l ifc r' a hz ha hf⟩
              · have hset : (regs.set i { ifc with inaddr := a })[u]? = regs[u]? :=
                  List.getElem?_set_ne (fun he => hui he.symm)
                obtain ⟨r', hg, hf⟩ := hrel u r (by rw [hset]; exact hu)
                exact ⟨r', hg, frameRel_mono e0 l r r' hf⟩
          · rw [step_eq_found_nonzero nti true (regs, false) e0 i ifc hfind hget hz]
            obtain ⟨hlen, hrel⟩ := ih regs
            refine ⟨hlen, fun u r hu => ?_⟩
            obtain ⟨r', hg, hf⟩ := hrel u r hu
            exact ⟨r', hg, frameRel_mono e0 l r r' hf⟩

/-- Snapshot used by the witness of claim C1. -/
def snapC1 : List Ifaddrs := [⟨cs_eth0, 0, some 5⟩]

/-- Registry used by the witness of claim C1. -/
def regsC1 : List Iface := [mkIfc cs_eth0 0 (-1) (-1)]

/-- Witness for claim C1: refreshing a one-record registry against a
snapshot carrying an address for that record keeps the count at one and
relates old and new record by the frame relation. -/
theorem iface_update_refresh_frame_witness :
    (iface_update nti0 true snapC1 regsC1).1.length = regsC1.length ∧
    ∃ r', (iface_update nti0 true snapC1 regsC1).1[0]? = some r' ∧
      FrameRel snapC1 (mkIfc cs_eth0 0 (-1) (-1)) r' :=
  ⟨(iface_update_refresh_frame nti0 snapC1 regsC1).1,
    (iface_update_refresh_frame nti0 snapC1 regsC1).2 0 (mkIfc cs_eth0 0 (-1) (-1)) (by decide)⟩

/-- Claim C2: in either mode, the reconcile reports a change exactly when
some snapshot entry, processed against the registry as it stood at that
point of the call, took the fill branch: it found an existing record with
a zero address while itself carrying an AF_INET address.  In particular a
plain append never raises the flag. -/
theorem iface_update_change_iff (nti : List Char → Nat) (refresh : Bool)
    (snap : List Ifaddrs) (regs : List Iface) :
    (iface_update nti refresh snap regs).2 = true ↔
      ∃ k e, snap[k]? = some e ∧
        FillCond (iface_update nti refresh (snap.take k) regs).1 e := by
  induction snap generalizing regs with
  | nil =>
    constructor
    · intro h
      exact absurd h (by simp [iface_update])
    · rintro ⟨k, e, hk, -⟩
      simp at hk
  | cons e0 l ih =>
    by_cases hc : (iface_update_step nti refresh (regs, false) e0).2 = true
    · have hfill : FillCond regs e0 := by
        rcases (step_snd_iff nti refresh (regs, false) e0).mp hc with h | h
        · exact absurd h (by simp)
        · exact h
      have hL : (iface_update nti refresh (e0 :: l) regs).2 = true := by
        simp only [iface_update, List.foldl_cons]
        exact fold_snd_mono nti refresh l _ hc
      refine iff_of_true hL ⟨0, e0, List.getElem?_cons_zero, ?_⟩
      simpa [iface_update] using hfill
    · have hsnd : (iface_update_step nti refresh (regs, false) e0).2 = false := by
        cases hb : (iface_update_step nti refresh (regs, false) e0).2
        · rfl
        · exact absurd hb hc
      have hnofill : ¬FillCond regs e0 := by
        intro hf
        exact hc ((step_snd_iff nti refresh (regs, false) e0).mpr (Or.inr hf))
      have hstep : iface_update_step nti refresh (regs, false) e0 =
          ((iface_update_step nti refresh (regs, false) e0).1, false) :=
        Prod.ext rfl hsnd
      have hdec : ∀ k, (iface_update nti refresh ((e0 :: l).take (k + 1)) regs).1 =
          (iface_update nti refresh (l.take k)
            (iface_update_step nti refresh (regs, false) e0).1).1 := by
        intro k
        simp only [iface_update, List.take_succ_cons, List.foldl_cons]
        rw [hstep]
      constructor
      · intro h
        simp only [iface_update, List.foldl_cons] at h
        rw [hstep] at h
        obtain ⟨k, e, hk, hfc⟩ :=
          (ih ((iface_update_step nti refresh (regs, false) e0).1)).mp h
        refine ⟨k + 1, e, ?_, ?_⟩
        · rw [List.getElem?_cons_succ]
          exact hk
        · rw [hdec k]
          exact hfc
      · rintro ⟨k, e, hk, hfc⟩
        cases k with
        | zero =>
          rw [List.getElem?_cons_zero] at hk
          obtain rfl : e0 = e := Option.some_inj.mp hk
          simp only [List.take_zero, iface_update, List.foldl_nil] at hfc
          exact absurd hfc hnofill
        | succ k =>
          rw [List.getElem?_cons_succ] at hk
          show (iface_update nti refresh (e0 :: l) regs).2 = true
          simp only [iface_update, List.foldl_cons]
          rw [hstep]
          apply (ih ((iface_update_step nti refresh (regs, false) e0).1)).mpr
          refine ⟨k, e, hk, ?_⟩
          rw [← hdec k]
          exact hfc

/-! ### Claim C7: full re-populate resets all virtual interface indices -/

/-- Through any reconcile, records that all carry unset vif/mif keep that
property: fills keep vif/mif, appends create records with vif = mif = -1. -/
theorem update_all_vif_mif (nti : List Char → Nat) (refresh : Bool) :
    ∀ (l : List Ifaddrs) (p : List Iface × Bool),
      (∀ r ∈ p.1, r.vif = -1 ∧ r.mif = -1) →
      ∀ r ∈ (l.foldl (iface_update_step nti refresh) p).1, r.vif = -1 ∧ r.mif = -1 := by
  intro l
  induction l with
  | nil => intro p h; exact h
  | cons e0 l ih =>
    intro p h
    simp only [List.foldl_cons]
    apply ih
    rcases hfind : iface_find_by_name_idx (strip_alias e0.ifa_name) p.1 0 none with _ | i
    · cases refresh
      · rw [step_eq_append nti p e0 hfind]
        intro r hr
        rcases List.mem_append.mp hr with h1 | h2
        · exact h r h1
        · obtain rfl := List.mem_singleton.mp h2
          exact ⟨rfl, rfl⟩
      · rw [step_eq_refresh_skip nti p e0 hfind]
        exact h
    · rcases hget : p.1[i]? with _ | ifc
      · rw [step_eq_found_oob nti refresh p e0 i hfind hget]
        exact h
      · rcases ha : e0.ifa_addr4 with _ | a
        · rw [step_eq_found_noaddr nti refresh p e0 i hfind ha]
          exact h
        · by_cases hz : ifc.inaddr = 0
          · rw [step_eq_fill nti refresh p e0 i ifc a hfind hget ha hz]
            intro r hr
            rcases List.mem_or_eq_of_mem_set hr with h1 | h2
            · exact h r h1
            · subst h2
              exact ⟨(h ifc (List.getElem?_mem hget)).1, (h ifc (List.getElem?_mem hget)).2⟩
          · rw [step_eq_found_nonzero nti refresh p e0 i ifc hfind hget hz]
            exact h

/-- Claim C7: a full re-populate ignores the previous registry entirely
(so no prior record survives, whatever vif/mif assignments it carried) and
every record it produces has vif = -1 and mif = -1. -/
theorem iface_init_fresh_vif_mif (nti : List Char → Nat) (snap : List Ifaddrs)
    (oldRegs : List Iface) :
    iface_init nti snap oldRegs = iface_init nti snap [] ∧
    ∀ r ∈ iface_init nti snap oldRegs, r.vif = -1 ∧ r.mif = -1 := by
  refine ⟨rfl, ?_⟩
  intro r hr
  exact update_all_vif_mif nti false snap ([], false) (by simp) r hr

/-- Snapshot used by the witness of claim C7. -/
def snapC7 : List Ifaddrs := [⟨cs_eth0, 0, some 5⟩]

/-- Prior registry used by the witness of claim C7, carrying vif/mif
assignments made by the registration collaborator. -/
def oldC7 : List Iface := [mkIfc cs_eth1 0 3 4]

/-- Witness for claim C7: after a full re-populate over a prior registry
with assigned vif/mif, the surviving record set is rebuilt from the
snapshot and its records carry vif = mif = -1. -/
theorem iface_init_fresh_vif_mif_witness :
    (iface_new nti0 ⟨cs_eth0, 0, some 5⟩ ∈ iface_init nti0 snapC7 oldC7) ∧
    (iface_new nti0 ⟨cs_eth0, 0, some 5⟩).vif = -1 ∧
    (iface_new nti0 ⟨cs_eth0, 0, some 5⟩).mif = -1 := by
  have hmem : iface_new nti0 ⟨cs_eth0, 0, some 5⟩ ∈ iface_init nti0 snapC7 oldC7 := by decide
  exact ⟨hmem, (iface_init_fresh_vif_mif nti0 snapC7 oldC7).2 _ hmem⟩

/-- Claim C10: when a full reconcile processes a snapshot entry whose OS
name contains ':', any record it appends for that entry is stored under
the exact OS name (suffix included); and when the entry's base name
already resolves to an existing record, no record is appended. -/
theorem iface_update_append_exact_name (nti : List Char → Nat) (snap : List Ifaddrs)
    (regs : List Iface) (k : Nat) (e : Ifaddrs)
    (he : snap[k]? = some e) (hcolon : ':' ∈ e.ifa_name) :
    ((iface_update nti false (snap.take (k + 1)) regs).1.length =
        (iface_update nti false (snap.take k) regs).1.length + 1 →
      (iface_update nti false (snap.take (k + 1)) regs).1 =
        (iface_update nti false (snap.take k) regs).1 ++ [iface_new nti e] ∧
      (iface_new nti e).name = e.ifa_name) ∧
    (∀ r, iface_find_by_name (some e.ifa_name)
        (iface_update nti false (snap.take k) regs).1 = some r →
      (iface_update nti false (snap.take (k + 1)) regs).1.length =
        (iface_update nti false (snap.take k) regs).1.length) := by
  rw [update_take_succ nti false snap regs k e he]
  set P := iface_update nti false (snap.take k) regs with hP
  rcases hfind : iface_find_by_name_idx (strip_alias e.ifa_name) P.1 0 none with _ | i
  · rw [step_eq_append nti P e hfind]
    constructor
    · intro _
      exact ⟨rfl, rfl⟩
    · intro r hr
      simp [iface_find_by_name, hfind] at hr
  · rcases hget : P.1[i]? with _ | ifc
    · rw [step_eq_found_oob nti false P e i hfind hget]
      exact ⟨fun hlen => absurd hlen (by omega), fun r hr => rfl⟩
    · rcases ha : e.ifa_addr4 with _ | a
      · rw [step_eq_found_noaddr nti false P e i hfind ha]
        exact ⟨fun hlen => absurd hlen (by omega), fun r hr => rfl⟩
      · by_cases hz : ifc.inaddr = 0
        · rw [step_eq_fill nti false P e i ifc a hfind hget ha hz]
          refine ⟨fun hlen => ?_, fun r hr => ?_⟩
          · rw [List.length_set] at hlen
            exact absurd hlen (by omega)
          · exact List.length_set _ _ _
        · rw [step_eq_found_nonzero nti false P e i ifc hfind hget hz]
          exact ⟨fun hlen => absurd hlen (by omega), fun r hr => rfl⟩

/-- Snapshots used by the witness of claim C10. -/
def snapC10 : List Ifaddrs := [⟨cs_eth0a1, 0, some 5⟩]

def snapC10b : List Ifaddrs := [⟨cs_eth0, 0, none⟩, ⟨cs_eth0a1, 0, some 5⟩]

/-- Witness for claim C10: a full reconcile from an empty registry appends
the alias entry eth0:1 under its exact OS name; and with a record whose
base name eth0 already resolves, processing the eth0:1 entry appends
nothing. -/
theorem iface_update_append_exact_name_witness :
    ((iface_update nti0 false (snapC10.take 1) []).1 =
        (iface_update nti0 false (snapC10.take 0) []).1 ++
          [iface_new nti0 ⟨cs_eth0a1, 0, some 5⟩] ∧
      (iface_new nti0 ⟨cs_eth0a1, 0, some 5⟩).name = cs_eth0a1) ∧
    (iface_update nti0 false (snapC10b.take 2) []).1.length =
      (iface_update nti0 false (snapC10b.take 1) []).1.length := by
  constructor
  · exact (iface_update_append_exact_name nti0 snapC10 [] 0 ⟨cs_eth0a1, 0, some 5⟩
      (by decide) (by decide)).1 (by decide)
  · exact (iface_update_append_exact_name nti0 snapC10b [] 1 ⟨cs_eth0a1, 0, some 5⟩
      (by decide) (by decide)).2 (iface_new nti0 ⟨cs_eth0, 0, none⟩) (by decide)

/-! ### Claim C8: record created earlier in a full reconcile, filled later -/

/-- Snapshot refuting claim C8 as stated: two entries named eth0:1, the
first without an address, the second with one. -/
def snapC8 : List Ifaddrs := [⟨cs_eth0a1, 0, none⟩, ⟨cs_eth0a1, 0, some 5⟩]

/-- Counterexample to claim C8 as stated: with the OS name eth0:1 (which
contains ':'), the record created from the first entry is never found
again — the lookup strips the alias suffix — so the second entry appends a
second record instead of filling the first, and the reconcile returns
false, not true. -/
theorem iface_update_created_then_filled_cex :
    (iface_update nti0 false snapC8 []).2 = false ∧
    ((iface_update nti0 false snapC8 []).1.map Iface.inaddr) = [0, 5] ∧
    ((iface_update nti0 false snapC8 []).1.map Iface.name) = [cs_eth0a1, cs_eth0a1] := by
  decide

/-- Specification predicate (claim C8): no record of the registry is named
X. -/
def NoName (X : List Char) (rs : List Iface) : Prop := ∀ r ∈ rs, r.name ≠ X

/-- Specification predicate (claim C8): either the change flag is already
raised, or the lookup for X lands on a record whose address is still
zero (so a later X entry with an address will raise the flag). -/
def PendingFill (X : List Char) (p : List Iface × Bool) : Prop :=
  p.2 = true ∨ ∃ i r, iface_find_by_name_idx X p.1 0 none = some i ∧
    p.1[i]? = some r ∧ r.inaddr = 0

/-- Appending a record with a different name does not disturb the lookup
scan. -/
theorem find_idx_append_ne (nm : List Char) (r0 : Iface) (h : r0.name ≠ nm) :
    ∀ (rs : List Iface) (i : Nat) (cnd : Option Nat),
      iface_find_by_name_idx nm (rs ++ [r0]) i cnd =
        iface_find_by_name_idx nm rs i cnd := by
  intro rs
  induction rs with
  | nil =>
    intro i cnd
    simp only [List.nil_append, iface_find_by_name_idx]
    rw [if_neg (fun he => h he.symm)]
  | cons q rest ih =>
    intro i cnd
    simp only [List.cons_append, iface_find_by_name_idx, List.append_eq]
    by_cases hq : nm = q.name
    · rw [if_pos hq, if_pos hq]
      by_cases hv : 0 ≤ q.vif
      · rw [if_pos hv, if_pos hv]
      · rw [if_neg hv, if_neg hv, ih]
    · rw [if_neg hq, if_neg hq, ih]

/-- A reconcile whose snapshot entries all avoid the name X keeps a
registry free of X-named records. -/
theorem noName_fold (nti : List Char → Nat) (refresh : Bool) (X : List Char) :
    ∀ (l : List Ifaddrs) (p : List Iface × Bool),
      (∀ e ∈ l, e.ifa_name ≠ X) → NoName X p.1 →
      NoName X (l.foldl (iface_update_step nti refresh) p).1 := by
  intro l
  induction l with
  | nil => intro p _ h; exact h
  | cons e0 l ih =>
    intro p hl h
    simp only [List.foldl_cons]
    apply ih _ (fun e hel => hl e (List.mem_cons_of_mem _ hel))
    rcases hfind : iface_find_by_name_idx (strip_alias e0.ifa_name) p.1 0 none with _ | i
    · cases refresh
      · rw [step_eq_append nti p e0 hfind]
        intro r hr
        rcases List.mem_append.mp hr with h1 | h2
        · exact h r h1
        · obtain rfl := List.mem_singleton.mp h2
          exact hl e0 (List.mem_cons_self _ _)
      · rw [step_eq_refresh_skip nti p e0 hfind]
        exact h
    · rcases hget : p.1[i]? with _ | ifc
      · rw [step_eq_found_oob nti refresh p e0 i hfind hget]
        exact h
      · rcases ha : e0.ifa_addr4 with _ | a
        · rw [step_eq_found_noaddr nti refresh p e0 i hfind ha]
          exact h
        · by_cases hz : ifc.inaddr = 0
          · rw [step_eq_fill nti refresh p e0 i ifc a hfind hget ha hz]
            intro r hr
            rcases List.mem_or_eq_of_mem_set hr with h1 | h2
            · exact h r h1
            · subst h2
              exact h ifc (List.getElem?_mem hget)
          · rw [step_eq_found_nonzero nti refresh p e0 i ifc hfind hget hz]
            exact h

/-- One full-reconcile loop body preserves the pending-fill invariant for
a ':'-free name X: a fill of the X record raises the flag, any other fill
leaves the registry's X lookup intact, and an append concerns a name other
than X. -/
theorem pendingFill_step (nti : List Char → Nat) (X : List Char)
    (hX : strip_alias X = X) (p : List Iface × Bool) (e : Ifaddrs)
    (hp : PendingFill X p) : PendingFill X (iface_update_step nti false p e) := by
  rcases hp with htrue | ⟨i, r, hf, hg, hz⟩
  · exact Or.inl (step_snd_mono nti false p e htrue)
  · rcases hfind : iface_find_by_name_idx (strip_alias e.ifa_name) p.1 0 none with _ | i'
    · have hne : (iface_new nti e).name ≠ X := by
        intro hcontra
        have hEX : e.ifa_name = X := hcontra
        rw [hEX, hX, hf] at hfind
        exact absurd hfind (by simp)
      rw [step_eq_append nti p e hfind]
      refine Or.inr ⟨i, r, ?_, ?_, hz⟩
      · rw [find_idx_append_ne X (iface_new nti e) hne p.1 0 none]
        exact hf
      · rw [List.getElem?_append_left (List.getElem?_eq_some.mp hg).1]
        exact hg
    · rcases hget : p.1[i']? with _ | ifc
      · rw [step_eq_found_oob nti false p e i' hfind hget]
        exact Or.inr ⟨i, r, hf, hg, hz⟩
      · rcases ha : e.ifa_addr4 with _ | a
        · rw [step_eq_found_noaddr nti false p e i' hfind ha]
          exact Or.inr ⟨i, r, hf, hg, hz⟩
        · by_cases hz' : ifc.inaddr = 0
          · rw [step_eq_fill nti false p e i' ifc a hfind hget ha hz']
            exact Or.inl rfl
          · rw [step_eq_found_nonzero nti false p e i' ifc hfind hget hz']
            exact Or.inr ⟨i, r, hf, hg, hz⟩

/-- The pending-fill invariant survives any stretch of a full reconcile. -/
theorem pendingFill_fold (nti : List Char → Nat) (X : List Char)
    (hX : strip_alias X = X) :
    ∀ (l : List Ifaddrs) (p : List Iface × Bool), PendingFill X p →
      PendingFill X (l.foldl (iface_update_step nti false) p) := by
  intro l
  induction l with
  | nil => intro p h; exact h
  | cons e0 l ih =>
    intro p h
    simp only [List.foldl_cons]
    exact ih _ (pendingFill_step nti X hX p e0 h)

/-- Claim C8 as amended: during a full reconcile starting with no record
named X, where X contains no ':' (stated as being fixed by alias
stripping), if the first snapshot entry named X carries no address and a
later entry named X carries one, the reconcile reports a change: the
record created bare from the earlier entry (or the change already raised
meanwhile) makes the later entry take the fill branch. -/
theorem iface_update_created_then_filled (nti : List Char → Nat) (snap : List Ifaddrs)
    (regs : List Iface) (X : List Char) (j k : Nat) (ej ek : Ifaddrs)
    (hX : strip_alias X = X)
    (h0 : ∀ r ∈ regs, r.name ≠ X)
    (hjk : j < k)
    (hj : snap[j]? = some ej) (hjn : ej.ifa_name = X) (hja : ej.ifa_addr4 = none)
    (hfirst : ∀ e ∈ snap.take j, e.ifa_name ≠ X)
    (hk : snap[k]? = some ek) (hkn : ek.ifa_name = X) (hka : ek.ifa_addr4.isSome = true) :
    (iface_update nti false snap regs).2 = true := by
  have hnoxj : NoName X (iface_update nti false (snap.take j) regs).1 :=
    noName_fold nti false X (snap.take j) (regs, false) hfirst h0
  have hstep_j : iface_update nti false (snap.take (j + 1)) regs =
      iface_update_step nti false (iface_update nti false (snap.take j) regs) ej :=
    update_take_succ nti false snap regs j ej hj
  have hstrip_j : strip_alias ej.ifa_name = X := by rw [hjn, hX]
  have hfind_j : iface_find_by_name_idx (strip_alias ej.ifa_name)
      (iface_update nti false (snap.take j) regs).1 0 none = none := by
    rw [hstrip_j]
    exact find_idx_eq_of_no_match X _ 0 none hnoxj
  have happend : iface_update_step nti false (iface_update nti false (snap.take j) regs) ej =
      ((iface_update nti false (snap.take j) regs).1 ++ [iface_new nti ej],
        (iface_update nti false (snap.take j) regs).2) :=
    step_eq_append nti _ ej hfind_j
  have hnewname : (iface_new nti ej).name = X := hjn
  have hfind_j1 : iface_find_by_name_idx X
      ((iface_update nti false (snap.take j) regs).1 ++ [iface_new nti ej]) 0 none =
      some (iface_update nti false (snap.take j) regs).1.length := by
    have := find_idx_eq_of_last_match X
      ((iface_update nti false (snap.take j) regs).1 ++ [iface_new nti ej]) 0 none
      (iface_update nti false (snap.take j) regs).1.length (iface_new nti ej)
      (List.getElem?_concat_length _ _) hnewname
      ?hall ?hafter
    · rw [Nat.zero_add] at this
      exact this
    case hall =>
      intro q hq hqn
      rcases List.mem_append.mp hq with h1 | h2
      · exact absurd hqn (hnoxj q h1)
      · obtain rfl := List.mem_singleton.mp h2
        show (-1 : Int) < 0
        decide
    case hafter =>
      intro q hq
      rw [List.drop_eq_nil_of_le (by simp)] at hq
      exact absurd hq (List.not_mem_nil q)
  have hpend_j1 : PendingFill X (iface_update nti false (snap.take (j + 1)) regs) := by
    rw [hstep_j, happend]
    refine Or.inr ⟨(iface_update nti false (snap.take j) regs).1.length, iface_new nti ej,
      hfind_j1, List.getElem?_concat_length _ _, ?_⟩
    show ej.ifa_addr4.getD 0 = 0
    rw [hja]
    rfl
  have hdecomp : snap.take (j + 1) ++ (snap.take k).drop (j + 1) = snap.take k := by
    conv_rhs => rw [← List.take_append_drop (j + 1) (snap.take k)]
    rw [List.take_take, min_eq_left (by omega)]
  have hpend_k : PendingFill X (iface_update nti false (snap.take k) regs) := by
    rw [← hdecomp]
    simp only [iface_update, List.foldl_append]
    exact pendingFill_fold nti X hX _ _ hpend_j1
  have hstep_k : iface_update nti false (snap.take (k + 1)) regs =
      iface_update_step nti false (iface_update nti false (snap.take k) regs) ek :=
    update_take_succ nti false snap regs k ek hk
  obtain ⟨a, ha⟩ := Option.isSome_iff_exists.mp hka
  have hstrip_k : strip_alias ek.ifa_name = X := by rw [hkn, hX]
  have hsnd_k1 : (iface_update nti false (snap.take (k + 1)) regs).2 = true := by
    rw [hstep_k]
    rcases hpend_k with htrue | ⟨i, r, hf, hg, hz⟩
    · exact step_snd_mono nti false _ ek htrue
    · rw [step_eq_fill nti false _ ek i r a (by rw [hstrip_k]; exact hf) hg ha hz]
  have hfin : (iface_update nti false (snap.take (k + 1) ++ snap.drop (k + 1)) regs).2 = true := by
    simp only [iface_update, List.foldl_append]
    exact fold_snd_mono nti false _ _ hsnd_k1
  rw [List.take_append_drop] at hfin
  exact hfin

/-- Snapshot used by the witness of the amended claim C8: wlan0 with an
address, then eth0 without, then eth0 with one. -/
def snapC8w : List Ifaddrs :=
  [⟨cs_wlan0, 0, some 9⟩, ⟨cs_eth0, 0, none⟩, ⟨cs_eth0, 0, some 5⟩]

/-- Witness for the amended claim C8: a full reconcile from an empty
registry over that snapshot creates eth0 bare, fills it from the later
entry, and reports a change. -/
theorem iface_update_created_then_filled_witness :
    (iface_update nti0 false snapC8w []).2 = true :=
  iface_update_created_then_filled nti0 snapC8w [] cs_eth0 1 2
    ⟨cs_eth0, 0, none⟩ ⟨cs_eth0, 0, some 5⟩
    (by decide) (by decide) (by decide) (by decide) (by decide) (by decide)
    (by decide) (by decide) (by decide) (by decide)
